import Mathlib

/-!
# Katamari: shallow embedding and verification

A shallow embedding of the parts of the Katamari repository
(`KatamariDB.py`, `KatamariMQServer.py`, `KatamariMQClient.py`,
`KatamariPipelines.py` / `KatamariLambda.py`) needed to settle the spec
claims, together with the theorems that settle them.

Conventions used throughout:
* Python `bytes` are modelled as `List Nat` with every element `< 256`.
* Python `dict` is modelled as an association list `List (String × β)`
  (insertion-ordered, unique keys); `defaultdict(list)` is modelled as a
  total function with default `[]`.
* Python floats coming from `time.time()` are modelled as `Nat`
  timestamps (only their ordering is used by the code under study).
* External library functions (`zlib`, `hashlib.sha256`, `orjson.dumps`,
  `dateutil.parser.parse`) are parameters of the model; where a claim
  needs a library guarantee (e.g. zlib round-trip) it appears as an
  explicit hypothesis.
* I/O (websockets, whoosh index, transaction-log files, asyncio
  scheduling) is outside the embedding; the state the Python code keeps
  in memory or in `KatamariDBM` is modelled explicitly.
-/

namespace Katamari

/-- Association-list lookup (Python `dict.get` / `key in dict`). -/
def lookupKV {β : Type _} (l : List (String × β)) (k : String) : Option β :=
  (l.find? (fun p => p.1 == k)).map (·.2)

/-- Python `d[k] = v`: replace in place when the key exists, else append
(insertion order of Python dicts). -/
def insertKV {β : Type _} (l : List (String × β)) (k : String) (v : β) :
    List (String × β) :=
  match l with
  | [] => [(k, v)]
  | (k', v') :: rest =>
    if k' == k then (k, v) :: rest else (k', v') :: insertKV rest k v

/-- Python `del d[k]` (no-op when absent, callers guard membership). -/
def removeKV {β : Type _} (l : List (String × β)) (k : String) :
    List (String × β) :=
  l.filter (fun p => !(p.1 == k))

/-! ## KatamariMVCC (`KatamariDB.py`, lines 39-87)

`VersionedValue` and `KatamariMVCC` as written in the source.  The store
is a `defaultdict(list)`; we model it as a total function with default
`[]`, so "key not in store" coincides with an empty history (the only
observable states: `put` appends immediately after creating the entry,
and `get` never creates entries). -/

structure VersionedValue (α : Type _) where
  value : α
  version : Nat
  timestamp : Nat
  transaction_id : String
  deriving Repr, DecidableEq

structure KatamariMVCC (α : Type _) where
  store : String → List (VersionedValue α)
  transactions : List (String × Nat)

/-- `begin_transaction`: `tx_id = f"tx_{time.time_ns()}"`,
`transactions[tx_id] = time.time()`.  The two clock reads are the
parameters `nowNs` and `now`. -/
def KatamariMVCC.begin_transaction {α : Type _} (m : KatamariMVCC α)
    (nowNs now : Nat) : String × KatamariMVCC α :=
  let txId := s!"tx_{nowNs}"
  (txId, { m with transactions := insertKV m.transactions txId now })

/-- `KatamariMVCC.get`.  `now` models the `time.time()` fallback used
when `tx_id` is not a tracked transaction. -/
def KatamariMVCC.get {α : Type _} (m : KatamariMVCC α) (key : String)
    (txId : Option String) (now : Nat) : Option α :=
  let hist := m.store key
  if hist.isEmpty then none
  else
    match txId with
    | none => hist.getLast?.map (·.value)
    | some tx =>
      let start := (lookupKV m.transactions tx).getD now
      (hist.reverse.find? (fun ver => ver.timestamp ≤ start)).map (·.value)

/-- `KatamariMVCC.put`: append a `VersionedValue` whose `version` is
`len(self.store[key]) + 1` and whose timestamp is `time.time()` (`now`). -/
def KatamariMVCC.put {α : Type _} (m : KatamariMVCC α) (key : String)
    (value : α) (txId : String) (now : Nat) : KatamariMVCC α :=
  let hist := m.store key
  { m with
    store := fun k =>
      if k = key then
        hist ++ [⟨value, hist.length + 1, now, txId⟩]
      else m.store k }

/-- `KatamariMVCC.commit`: drop the transaction from the tracking map. -/
def KatamariMVCC.commit {α : Type _} (m : KatamariMVCC α) (txId : String) :
    KatamariMVCC α :=
  { m with transactions := removeKV m.transactions txId }

/-- The per-key version invariant: position `i` of a key's history holds
version number `i + 1` (versions read `1, 2, 3, …`). -/
def versionsOk {α : Type _} (hist : List (VersionedValue α)) : Prop :=
  ∀ i (h : i < hist.length), (hist.get ⟨i, h⟩).version = i + 1

/-- The empty MVCC store (state of `KatamariMVCC.__init__`). -/
def KatamariMVCC.init (α : Type _) : KatamariMVCC α :=
  { store := fun _ => [], transactions := [] }

end Katamari

namespace Katamari

/-- Helper: `find?` over a reversed list returns the element at the
greatest index satisfying the predicate. -/
theorem find_reverse_of_greatest {β : Type _} (l : List β) (p : β → Bool)
    (j : Nat) (hj : j < l.length) (hpj : p (l.get ⟨j, hj⟩) = true)
    (hafter : ∀ i (hi : i < l.length), j < i → p (l.get ⟨i, hi⟩) = false) :
    l.reverse.find? p = some (l.get ⟨j, hj⟩) := by
  induction l using List.reverseRecOn with
  | nil => simp at hj
  | append_singleton l a ih =>
    rw [List.reverse_append]
    simp only [List.reverse_singleton, List.singleton_append, List.find?_cons]
    have hlen : (l ++ [a]).length = l.length + 1 := by simp
    by_cases hje : j = l.length
    · subst hje
      have ha : (l ++ [a]).get ⟨l.length, hj⟩ = a := by
        simp [List.get_eq_getElem]
      rw [ha] at hpj ⊢
      simp [hpj]
    · have hjl : j < l.length := by omega
      have hlast : l.length < (l ++ [a]).length := by omega
      have hpa : p ((l ++ [a]).get ⟨l.length, hlast⟩) = false :=
        hafter l.length hlast (by omega)
      have ha : (l ++ [a]).get ⟨l.length, hlast⟩ = a := by
        simp [List.get_eq_getElem]
      rw [ha] at hpa
      rw [hpa]
      have hget : (l ++ [a]).get ⟨j, hj⟩ = l.get ⟨j, hjl⟩ := by
        simp only [List.get_eq_getElem]
        exact List.getElem_append_left hjl
      rw [hget] at hpj ⊢
      exact ih hjl hpj (fun i hi hji => by
        have hi' : i < (l ++ [a]).length := by simp only [List.length_append]; omega
        have hgi : (l ++ [a]).get ⟨i, hi'⟩ = l.get ⟨i, hi⟩ := by
          simp only [List.get_eq_getElem]
          exact List.getElem_append_left hi
        rw [← hgi]
        exact hafter i hi' hji)

end Katamari

namespace Katamari

/-- C3: for a key with a non-empty version history, `KatamariMVCC.get`
without a transaction id returns the value of the last-appended version;
with a transaction id `tx` whose start timestamp is `T`, it returns the
value of the newest (greatest-index) version whose timestamp is `≤ T`,
and `none` when no version satisfies the bound; for an absent key
(empty history) it returns `none`. -/
theorem C3_mvcc_get_visibility {α : Type _} (m : KatamariMVCC α) (k : String)
    (now : Nat) (hne : m.store k ≠ []) :
    (m.get k none now = some ((m.store k).getLast hne).value)
    ∧ (∀ tx T, lookupKV m.transactions tx = some T →
        (∀ j (hj : j < (m.store k).length),
          ((m.store k).get ⟨j, hj⟩).timestamp ≤ T →
          (∀ i (hi : i < (m.store k).length), j < i →
            T < ((m.store k).get ⟨i, hi⟩).timestamp) →
          m.get k (some tx) now = some (((m.store k).get ⟨j, hj⟩).value))
        ∧ ((∀ i (hi : i < (m.store k).length),
            T < ((m.store k).get ⟨i, hi⟩).timestamp) →
          m.get k (some tx) now = none))
    ∧ (∀ k' txId, m.store k' = [] → m.get k' txId now = none) := by
  have hempty : (m.store k).isEmpty = false := by
    cases h : m.store k with
    | nil => exact absurd h hne
    | cons a t => rfl
  refine ⟨?_, fun tx T hT => ⟨?_, ?_⟩, fun k' txId h => ?_⟩
  · simp only [KatamariMVCC.get, hempty, Bool.false_eq_true, if_false]
    rw [List.getLast?_eq_getLast _ hne]
    rfl
  · intro j hj hts hafter
    simp only [KatamariMVCC.get, hempty, Bool.false_eq_true, if_false, hT,
      Option.getD_some]
    rw [find_reverse_of_greatest (m.store k) _ j hj
      (by simpa using hts)
      (fun i hi hji => by simpa using hafter i hi hji)]
    rfl
  · intro hall
    simp only [KatamariMVCC.get, hempty, Bool.false_eq_true, if_false, hT,
      Option.getD_some]
    rw [List.find?_eq_none.mpr]
    · rfl
    · intro x hx
      rw [List.mem_reverse] at hx
      obtain ⟨⟨i, hi⟩, rfl⟩ := List.mem_iff_get.mp hx
      simpa using hall i hi
  · simp [KatamariMVCC.get, h]

/-- Concrete MVCC state used by the witnesses: key `"x"` has two
versions (timestamps 5 and 7) and transaction `"t1"` started at time 6. -/
def mvccExample : KatamariMVCC Nat :=
  { store := fun k => if k = "x" then [⟨10, 1, 5, "t0"⟩, ⟨20, 2, 7, "t0"⟩] else [],
    transactions := [("t1", 6)] }

theorem C3_mvcc_get_visibility_witness :
    mvccExample.get "x" none 0 = some 20
    ∧ mvccExample.get "x" (some "t1") 0 = some 10
    ∧ mvccExample.get "nope" none 0 = none := by
  have h := C3_mvcc_get_visibility mvccExample "x" 0 (by decide)
  refine ⟨h.1.trans (by decide), ?_, h.2.2 "nope" none (by decide)⟩
  have h2 := (h.2.1 "t1" 6 (by decide)).1 0 (by decide) (by decide)
    (by decide)
  exact h2.trans (by decide)

/-- C7: `KatamariMVCC.put` appends a version whose `version` field is
the length of the key's new history; starting from any state whose
histories satisfy `versionsOk` (positions hold versions `1, 2, 3, …`),
the invariant is preserved, so version numbers along any history are
exactly `1, 2, 3, …` — strictly increasing and 1-based. -/
theorem C7_mvcc_put_versions {α : Type _} (m : KatamariMVCC α)
    (hm : ∀ k', versionsOk (m.store k')) (k : String) (v : α) (tx : String)
    (now : Nat) :
    (∀ k', versionsOk ((m.put k v tx now).store k'))
    ∧ ((m.put k v tx now).store k).length = (m.store k).length + 1
    ∧ ((m.put k v tx now).store k).getLast? =
        some ⟨v, (m.store k).length + 1, now, tx⟩
    ∧ (∀ i j (hi : i < ((m.put k v tx now).store k).length)
        (hj : j < ((m.put k v tx now).store k).length), i < j →
        (((m.put k v tx now).store k).get ⟨i, hi⟩).version
          < (((m.put k v tx now).store k).get ⟨j, hj⟩).version)
    ∧ (∀ k', versionsOk ((KatamariMVCC.init α).store k')) := by
  have hstore : ∀ k', (m.put k v tx now).store k' =
      if k' = k then m.store k ++ [⟨v, (m.store k).length + 1, now, tx⟩]
      else m.store k' := fun k' => rfl
  have hok : ∀ k', versionsOk ((m.put k v tx now).store k') := by
    intro k'
    rw [hstore k']
    by_cases hk : k' = k
    · simp only [hk, if_true]
      intro i h
      simp only [List.length_append, List.length_cons, List.length_nil] at h
      by_cases hi : i < (m.store k).length
      · have : (m.store k ++ [(⟨v, (m.store k).length + 1, now, tx⟩ :
            VersionedValue α)]).get ⟨i, by simp only [List.length_append]; omega⟩
            = (m.store k).get ⟨i, hi⟩ := by
          simp only [List.get_eq_getElem]
          exact List.getElem_append_left hi
        rw [this]
        exact hm k i hi
      · have hieq : i = (m.store k).length := by omega
        subst hieq
        have : (m.store k ++ [(⟨v, (m.store k).length + 1, now, tx⟩ :
            VersionedValue α)]).get ⟨(m.store k).length, by
              simp only [List.length_append, List.length_cons,
                List.length_nil]; omega⟩
            = ⟨v, (m.store k).length + 1, now, tx⟩ := by
          simp [List.get_eq_getElem]
        rw [this]
    · simp only [hk, if_false]
      exact hm k'
  refine ⟨hok, ?_, ?_, ?_, ?_⟩
  · rw [hstore k]; simp
  · rw [hstore k]; simp [List.getLast?_concat]
  · intro i j hi hj hij
    have h1 := hok k i hi
    have h2 := hok k j hj
    omega
  · intro k' i h
    simp only [KatamariMVCC.init, List.length_nil] at h
    omega

theorem C7_mvcc_put_versions_witness :
    ((mvccExample.put "x" 30 "t9" 9).store "x").getLast? = some ⟨30, 3, 9, "t9"⟩ := by
  have hm : ∀ k', versionsOk (mvccExample.store k') := by
    intro k' i h
    by_cases hk : k' = "x"
    · subst hk; revert h; revert i; decide
    · simp only [mvccExample, hk, if_false, List.length_nil] at h
      omega
  have h := (C7_mvcc_put_versions mvccExample hm "x" 30 "t9" 9).2.2.1
  exact h.trans (by decide)

end Katamari

namespace Katamari

/-! ## parse_time_string (`KatamariPipelines.py` lines 12-36, identical
copy in `KatamariLambda.py` lines 11-35)

`re.findall(r'(\d+)([qMwdhms])', s)` is modelled by a left-to-right
scanner over the characters. -/

/-- Unit table `time_units` from the source. -/
def timeUnitSeconds (u : Char) : Nat :=
  if u = 'q' then 7884000
  else if u = 'M' then 2628000
  else if u = 'w' then 604800
  else if u = 'd' then 86400
  else if u = 'h' then 3600
  else if u = 'm' then 60
  else if u = 's' then 1
  else 0

/-- The character class `[qMwdhms]`. -/
def isTimeUnit (u : Char) : Bool :=
  u = 'q' || u = 'M' || u = 'w' || u = 'd' || u = 'h' || u = 'm' || u = 's'

/-- Decimal value of a digit run (`int(amount)`). -/
def digitsToNat (ds : List Char) : Nat :=
  ds.foldl (fun acc c => 10 * acc + (c.toNat - 48)) 0

/-- Scanner state: `ds` is the digit run read so far.  On a digit the
run extends; on a unit letter directly after a non-empty run the pair
`(int(run), unit)` matches and the scan restarts; any other character
drops the pending run (backtracking inside the greedy `\\d+` can never
produce a match the maximal run does not, since every proper prefix of
the run is followed by another digit). -/
def findTimeAux : List Char → List Char → List (Nat × Char)
  | _, [] => []
  | ds, c :: cs =>
    if c.isDigit then findTimeAux (ds ++ [c]) cs
    else if !ds.isEmpty && isTimeUnit c then
      (digitsToNat ds, c) :: findTimeAux [] cs
    else findTimeAux [] cs

/-- `re.findall(r'(\\d+)([qMwdhms])', ·)` on the character list. -/
def findTimeComponents (l : List Char) : List (Nat × Char) :=
  findTimeAux [] l

/-- `parse_time_string`: fold over the regex matches, adding
`int(amount) * time_units[unit]` each time. -/
def parse_time_string (s : String) : Nat :=
  (findTimeComponents s.data).foldl
    (fun total comp => total + comp.1 * timeUnitSeconds comp.2) 0

end Katamari

namespace Katamari

/-- Helper: the source's running-total loop equals a sum over the list
of matches. -/
theorem foldl_add_contrib (l : List (Nat × Char)) (n : Nat) :
    l.foldl (fun total comp => total + comp.1 * timeUnitSeconds comp.2) n
      = n + (l.map (fun comp => comp.1 * timeUnitSeconds comp.2)).sum := by
  induction l generalizing n with
  | nil => simp
  | cons a t ih => simp [List.foldl_cons, ih]; omega

/-- C8: `parse_time_string` sums `amount * weight(unit)` over every
`\d+[qMwdhms]` match of its input, with weights q=7884000, M=2628000,
w=604800, d=86400, h=3600, m=60, s=1; `"2w3d5h20m30s"` parses to
1488030, and the empty string, or any string with no recognised
component, parses to 0. -/
theorem C8_parse_time_string (s : String) :
    parse_time_string s =
      ((findTimeComponents s.data).map
        (fun comp => comp.1 * timeUnitSeconds comp.2)).sum
    ∧ (timeUnitSeconds 'q' = 7884000 ∧ timeUnitSeconds 'M' = 2628000
       ∧ timeUnitSeconds 'w' = 604800 ∧ timeUnitSeconds 'd' = 86400
       ∧ timeUnitSeconds 'h' = 3600 ∧ timeUnitSeconds 'm' = 60
       ∧ timeUnitSeconds 's' = 1)
    ∧ parse_time_string "2w3d5h20m30s" = 1488030
    ∧ parse_time_string "" = 0
    ∧ (findTimeComponents s.data = [] → parse_time_string s = 0) := by
  refine ⟨?_, by decide, by rfl, by rfl, fun h => ?_⟩
  · rw [parse_time_string, foldl_add_contrib]
    omega
  · rw [parse_time_string, h]
    rfl

theorem C8_parse_time_string_witness :
    parse_time_string "hello" = 0 :=
  (C8_parse_time_string "hello").2.2.2.2 (by rfl)

end Katamari

namespace Katamari

/-! ## KatamariDBM WAL recovery (`KatamariDB.py`, lines 212-229)

`_recover_from_wal` loops: `entry = wal_f.read(8)`; `if not entry:
break`; `struct.unpack('>II', entry)`; then reads `key_size` and
`value_size` bytes and appends `entry + key + value` to the data file.
A file `read(n)` returns the at-most-`n` bytes remaining, so:
* 1-7 bytes left → `entry` is non-empty but shorter than 8, and
  `struct.unpack('>II', entry)` raises `struct.error` (modelled as
  `WalError.structError`) — there is no short-read check;
* a short key/value read is not detected either: the truncated bytes are
  replayed into the data file under the full-size header.

On success each record `(entry, key, value)` is appended to the data
file and indexed; the WAL is then deleted and the index persisted. -/

/-- `struct.unpack('>II', ·)` on one big-endian 32-bit field. -/
def beU32 (b0 b1 b2 b3 : Nat) : Nat :=
  b0 * 16777216 + b1 * 65536 + b2 * 256 + b3

/-- `struct.error` raised by `struct.unpack('>II', entry)` when `entry`
has fewer than 8 bytes. -/
inductive WalError where
  | structError
  deriving Repr, DecidableEq

/-- One record as replayed into the data file: the 8 header bytes as
read, the key bytes, the value bytes (each possibly short at EOF; the
code performs no length check on them). -/
structure WalRecord where
  entry : List Nat
  key : List Nat
  value : List Nat
  deriving Repr, DecidableEq

/-- The recovery loop.  `fuel` bounds the number of iterations; the
wrapper passes the WAL length, which suffices since every iteration
consumes at least the 8 header bytes (the `fuel = 0` branch with a
non-empty buffer is unreachable from the wrapper). -/
def recoverWalLoop : Nat → List Nat → Except WalError (List WalRecord)
  | _, [] => .ok []
  | 0, _ :: _ => .error .structError
  | fuel + 1, b0 :: b1 :: b2 :: b3 :: b4 :: b5 :: b6 :: b7 :: rest =>
    let keySize := beU32 b0 b1 b2 b3
    let valueSize := beU32 b4 b5 b6 b7
    let key := rest.take keySize
    let rest2 := rest.drop keySize
    let value := rest2.take valueSize
    let rest3 := rest2.drop valueSize
    (recoverWalLoop fuel rest3).map
      (fun tail => ⟨[b0, b1, b2, b3, b4, b5, b6, b7], key, value⟩ :: tail)
  | _ + 1, bs => .error .structError

/-- `_recover_from_wal` restricted to the record-parsing loop: returns
the records replayed into the data file, or the exception that escapes
`KatamariDBM.__init__`. -/
def recoverWalRecords (wal : List Nat) : Except WalError (List WalRecord) :=
  recoverWalLoop wal.length wal

end Katamari

namespace Katamari

/-- C2 (code bug): a WAL whose final record is torn is NOT discarded at
the first short read.  For the WAL holding one complete record
(key_size=1, value_size=1, key `"k"`, value `"v"`) followed by a torn
4-byte header fragment, recovery raises `struct.error` out of
`KatamariDBM.__init__` instead of replaying the complete record and
dropping the tail — the same WAL without the torn tail recovers fine.
A record whose value region is short at EOF (header promises 5 value
bytes, 1 remains) is not discarded either: it is replayed into the data
file with the full-size header, i.e. as a corrupt record. -/
theorem C2_wal_torn_tail_is_fatal :
    recoverWalRecords ([0, 0, 0, 1, 0, 0, 0, 1, 107, 118] ++ [0, 0, 0, 0])
      = .error .structError
    ∧ recoverWalRecords [0, 0, 0, 1, 0, 0, 0, 1, 107, 118]
      = .ok [⟨[0, 0, 0, 1, 0, 0, 0, 1], [107], [118]⟩]
    ∧ recoverWalRecords [0, 0, 0, 1, 0, 0, 0, 5, 107, 118]
      = .ok [⟨[0, 0, 0, 1, 0, 0, 0, 5], [107], [118]⟩] :=
  ⟨rfl, rfl, rfl⟩

end Katamari

namespace Katamari

/-! ## KatamariMQServer sharding (`KatamariMQServer.py`, lines 60-93)

`shard_data` computes `shard_size = len(data) // num_shards` and returns
`[data[i:i + shard_size] for i in range(0, len(data), shard_size)]`.
With `num_shards = 0` the division raises `ZeroDivisionError`; with
`shard_size = 0` (fewer items than shards, or no items) `range` raises
`ValueError: range() arg 3 must not be zero`.  `range(0, L, s)` with
`s > 0` enumerates `k*s` for `k < ⌈L/s⌉`, and `data[i:i+s]` is
`(data.drop i).take s`. -/

/-- The slice comprehension
`[data[i:i + s] for i in range(0, len(data), s)]` for `s > 0`. -/
def pySlices {α : Type _} (s : Nat) (data : List α) : List (List α) :=
  (List.range ((data.length + s - 1) / s)).map
    (fun k => (data.drop (k * s)).take s)

/-- `KatamariMQServer.shard_data` (exceptions become `Except.error`). -/
def shard_data {α : Type _} (data : List α) (numShards : Nat) :
    Except String (List (List α)) :=
  if numShards = 0 then
    .error "ZeroDivisionError: integer division or modulo by zero"
  else
    let shardSize := data.length / numShards
    if shardSize = 0 then
      .error "ValueError: range() arg 3 must not be zero"
    else
      .ok (pySlices shardSize data)

/-- `KatamariMQServer.assign_shards`, restricted to the dispatch effect:
the list, in shard order `i = 0, 1, …`, of
(`shard_key`, shard, assigned worker id) — exactly the triple persisted
as `self.db[shard_key] = {'shard_data': shard, 'assigned_to': worker_id}`
and sent to the worker.  `workers` is the `self.workers` dict as an
association list `worker_id ↦ workload`; `sorted(..., key=workload)` is
the stable `mergeSort` on workloads.  With no workers the body is
skipped (`if self.workers:`). -/
def assign_shards {α : Type _} (workers : List (String × Nat))
    (jobId : String) (data : List α) :
    Except String (List (String × List α × String)) :=
  if workers.isEmpty then .ok []
  else
    (shard_data data workers.length).map (fun shards =>
      let sorted := workers.mergeSort (fun a b => a.2 ≤ b.2)
      shards.enum.map (fun p =>
        (s!"shard_{jobId}_{p.1}", p.2,
          ((sorted.get? (p.1 % sorted.length)).map Prod.fst).getD "")))

/-- C9: whenever there are more shards requested than data items
(`|data| < n`, including the empty-data case), `shard_size` is `0` and
`shard_data` raises `ValueError` from `range(0, len(data), 0)` instead
of returning shards, so `assign_shards` fails rather than assigning
anything. -/
theorem C9_shard_size_zero_raises {α : Type _} (data : List α) (n : Nat)
    (hn : 0 < n) (hlt : data.length < n) :
    shard_data data n = .error "ValueError: range() arg 3 must not be zero"
    ∧ ∀ (workers : List (String × Nat)) (jobId : String),
        workers ≠ [] → workers.length = n →
        assign_shards workers jobId data =
          .error "ValueError: range() arg 3 must not be zero" := by
  have hdiv : data.length / n = 0 := Nat.div_eq_of_lt hlt
  have hsd : shard_data data n =
      .error "ValueError: range() arg 3 must not be zero" := by
    unfold shard_data
    rw [if_neg (by omega)]
    simp [hdiv]
  refine ⟨hsd, fun workers jobId hne hlen => ?_⟩
  unfold assign_shards
  rw [if_neg (by simpa [List.isEmpty_iff] using hne), hlen, hsd]
  rfl

theorem C9_shard_size_zero_raises_witness :
    shard_data ([10, 20] : List Nat) 3
      = .error "ValueError: range() arg 3 must not be zero"
    ∧ assign_shards [("w1", 0), ("w2", 0), ("w3", 0)] "j" ([10, 20] : List Nat)
      = .error "ValueError: range() arg 3 must not be zero" := by
  have h := C9_shard_size_zero_raises ([10, 20] : List Nat) 3 (by decide)
    (by decide)
  exact ⟨h.1, h.2 [("w1", 0), ("w2", 0), ("w3", 0)] "j" (by decide) rfl⟩

/-- C1 (counterexample): with 10 data items and 3 live workers the
dispatcher does NOT produce exactly 3 contiguous shards with the last
absorbing the remainder (`[[0,1,2],[3,4,5],[6,7,8,9]]`): `shard_data`
produces 4 shards `[[0,1,2],[3,4,5],[6,7,8],[9]]` — the remainder
becomes an extra trailing shard. -/
theorem C1_sharding_counterexample :
    shard_data (List.range 10) 3 = .ok [[0, 1, 2], [3, 4, 5], [6, 7, 8], [9]]
    ∧ shard_data (List.range 10) 3 ≠ .ok [[0, 1, 2], [3, 4, 5], [6, 7, 8, 9]]
    ∧ ([[0, 1, 2], [3, 4, 5], [6, 7, 8], [9]] : List (List Nat)).length ≠ 3 :=
  ⟨rfl, fun h => by
    have h2 := Except.ok.inj h
    revert h2
    decide, by decide⟩

end Katamari

namespace Katamari

/-- Ceiling-division step: removing one full shard of size `s` from a
list of length `L ≥ 1` lowers `⌈L/s⌉` by one. -/
theorem ceil_div_drop (s L m : Nat) (hs : 0 < s) (hL : 1 ≤ L)
    (hm : (L + s - 1) / s = m + 1) : (L - s + s - 1) / s = m := by
  rcases le_or_lt s L with hsl | hsl
  · have h1 : L + s - 1 = (L - 1) + s := by omega
    rw [h1, Nat.add_div_right _ hs] at hm
    have h2 : L - s + s - 1 = L - 1 := by omega
    rw [h2]
    exact Nat.add_right_cancel hm
  · have h0 : L - s = 0 := by omega
    have hlt : (L + s - 1) / s < 2 :=
      (Nat.div_lt_iff_lt_mul hs).mpr (by omega)
    rw [hm] at hlt
    have hm0 : m = 0 := by omega
    rw [h0, hm0]
    apply Nat.div_eq_of_lt
    omega

/-- Joining the Python slices `[data[i:i+s] for i in range(0, L, s)]`
recovers `data` (the shards are contiguous and in order). -/
theorem pySlices_join {α : Type _} (s : Nat) (hs : 0 < s) (data : List α) :
    (pySlices s data).flatten = data := by
  generalize hm : (data.length + s - 1) / s = m
  induction m generalizing data with
  | zero =>
    have hL : data.length = 0 := by
      by_contra h
      have h1 : (1 : Nat) ≤ (data.length + s - 1) / s :=
        (Nat.le_div_iff_mul_le hs).mpr (by omega)
      omega
    have hnil : data = [] := List.length_eq_zero.mp hL
    subst hnil
    simp only [pySlices, List.length_nil] at hm ⊢
    rw [hm]
    rfl
  | succ m ih =>
    have hL1 : 1 ≤ data.length := by
      by_contra h
      have h0 : data.length = 0 := by omega
      rw [h0] at hm
      have : (0 + s - 1) / s = 0 := Nat.div_eq_of_lt (by omega)
      omega
    unfold pySlices
    rw [hm, List.range_succ_eq_map]
    simp only [List.map_cons, List.flatten_cons, Nat.zero_mul, List.drop_zero,
      List.map_map]
    have hdrop : ∀ k : Nat,
        data.drop (Nat.succ k * s) = (data.drop s).drop (k * s) := by
      intro k
      rw [List.drop_drop]
      congr 1
      rw [Nat.succ_mul]
      omega
    have hceil : ((data.drop s).length + s - 1) / s = m := by
      rw [List.length_drop]
      exact ceil_div_drop s data.length m hs hL1 hm
    have htail :
        (List.range m).map
            ((fun k => (data.drop (k * s)).take s) ∘ Nat.succ)
          = pySlices s (data.drop s) := by
      unfold pySlices
      rw [hceil]
      refine List.map_congr_left (fun k _ => ?_)
      simp only [Function.comp_apply]
      rw [hdrop k]
    rw [htail, ih (data.drop s) hceil]
    exact List.take_append_drop s data

/-- Number of Python slices. -/
theorem pySlices_length {α : Type _} (s : Nat) (data : List α) :
    (pySlices s data).length = (data.length + s - 1) / s := by
  simp [pySlices]

/-- Slice `i` of the Python comprehension. -/
theorem pySlices_get {α : Type _} (s : Nat) (data : List α) (i : Nat)
    (hi : i < (pySlices s data).length) :
    (pySlices s data).get ⟨i, hi⟩ = (data.drop (i * s)).take s := by
  simp [pySlices, List.get_eq_getElem]

/-- Every slice except possibly the last has length exactly `s`. -/
theorem pySlices_get_length_full {α : Type _} (s : Nat) (hs : 0 < s)
    (data : List α) (i : Nat) (hi : i < (pySlices s data).length)
    (hnotlast : i + 1 < (pySlices s data).length) :
    ((pySlices s data).get ⟨i, hi⟩).length = s := by
  rw [pySlices_get]
  rw [pySlices_length] at hnotlast
  have hL1 : 1 ≤ data.length := by
    by_contra h
    have h0 : data.length = 0 := by omega
    rw [h0] at hnotlast
    have : (0 + s - 1) / s = 0 := Nat.div_eq_of_lt (by omega)
    omega
  have hceil : (data.length + s - 1) / s = (data.length - 1) / s + 1 := by
    have h1 : data.length + s - 1 = (data.length - 1) + s := by omega
    rw [h1, Nat.add_div_right _ hs]
  have hi1 : i + 1 ≤ (data.length - 1) / s := by omega
  have hmul : (i + 1) * s ≤ (data.length - 1) / s * s :=
    Nat.mul_le_mul_right s hi1
  have hdm : (data.length - 1) / s * s ≤ data.length - 1 :=
    Nat.div_mul_le_self _ s
  have hsl : i * s + s ≤ data.length := by
    have : (i + 1) * s = i * s + s := by rw [Nat.succ_mul]
    omega
  simp only [List.length_take, List.length_drop]
  omega

/-- The last slice has length `L - (⌈L/s⌉ - 1) * s`: it holds exactly
the remaining items (at most `s`). -/
theorem pySlices_get_length_last {α : Type _} (s : Nat) (hs : 0 < s)
    (data : List α) (hL1 : 1 ≤ data.length)
    (hi : (pySlices s data).length - 1 < (pySlices s data).length) :
    ((pySlices s data).get ⟨(pySlices s data).length - 1, hi⟩).length
      = data.length - ((pySlices s data).length - 1) * s := by
  rw [pySlices_get, pySlices_length]
  have hceil : (data.length + s - 1) / s = (data.length - 1) / s + 1 := by
    have h1 : data.length + s - 1 = (data.length - 1) + s := by omega
    rw [h1, Nat.add_div_right _ hs]
  rw [hceil]
  simp only [Nat.add_sub_cancel]
  have hdm : (data.length - 1) / s * s ≤ data.length - 1 :=
    Nat.div_mul_le_self _ s
  have hqm := Nat.div_add_mod (data.length - 1) s
  have hr : (data.length - 1) % s < s := Nat.mod_lt _ hs
  rw [Nat.mul_comm] at hqm
  simp only [List.length_take, List.length_drop]
  omega

/-- Among `i < m`, at most `⌈m/n⌉` values of `i` hit any one residue
class `i % n = p` (round-robin fairness). -/
theorem countP_mod_le (n p : Nat) (hn : 0 < n) (m : Nat) :
    (List.range m).countP (fun i => i % n == p) ≤ (m + n - 1) / n := by
  induction m using Nat.strong_induction_on with
  | _ m ih =>
    rcases Nat.eq_zero_or_pos m with hm0 | hmpos
    · subst hm0
      simp
    rcases le_or_lt m n with hmn | hmn
    · have hcong : (List.range m).countP (fun i => i % n == p)
          = (List.range m).countP (fun i => i == p) := by
        refine List.countP_congr (fun x hx => ?_)
        rw [List.mem_range] at hx
        have : x % n = x := Nat.mod_eq_of_lt (by omega)
        simp [this]
      rw [hcong]
      have hcount : (List.range m).countP (fun i => i == p)
          = (List.range m).count p := rfl
      rw [hcount]
      have hle1 : (List.range m).count p ≤ 1 :=
        List.nodup_iff_count_le_one.mp (List.nodup_range m) p
      have hge1 : 1 ≤ (m + n - 1) / n :=
        (Nat.le_div_iff_mul_le hn).mpr (by omega)
      omega
    · have hrange : List.range m
          = List.range n ++ (List.range (m - n)).map (n + ·) := by
        rw [← List.range_add]
        congr 1
        omega
      rw [hrange, List.countP_append, List.countP_map]
      have hcong1 : (List.range n).countP (fun i => i % n == p)
          = (List.range n).countP (fun i => i == p) := by
        refine List.countP_congr (fun x hx => ?_)
        rw [List.mem_range] at hx
        have : x % n = x := Nat.mod_eq_of_lt hx
        simp [this]
      have hle1 : (List.range n).countP (fun i => i % n == p) ≤ 1 := by
        rw [hcong1]
        exact List.nodup_iff_count_le_one.mp (List.nodup_range n) p
      have hcong2 : (List.range (m - n)).countP
            ((fun i => i % n == p) ∘ (fun x => n + x))
          = (List.range (m - n)).countP (fun i => i % n == p) := by
        refine List.countP_congr (fun x _ => ?_)
        simp [Function.comp_apply, Nat.add_mod_left]
      have hih := ih (m - n) (by omega)
      have harith : (m - n + n - 1) / n + 1 = (m + n - 1) / n := by
        have h1 : m + n - 1 = (m - n + n - 1) + n := by omega
        rw [h1, Nat.add_div_right _ hn]
      rw [hcong2]
      refine le_trans (Nat.add_le_add hle1 hih) ?_
      rw [Nat.add_comm]
      exact le_of_eq harith

end Katamari

namespace Katamari

/-- Helper: length of an `enum`-then-`map` pipeline. -/
theorem enumMap_length {α β : Type _} (l : List α) (g : Nat × α → β) :
    (l.enum.map g).length = l.length := by
  simp

/-- Helper: element `i` of an `enum`-then-`map` pipeline. -/
theorem enumMap_get {α β : Type _} (l : List α) (g : Nat × α → β) (i : Nat)
    (hi : i < (l.enum.map g).length) :
    (l.enum.map g).get ⟨i, hi⟩
      = g (i, l.get ⟨i, by simpa using hi⟩) := by
  simp [List.get_eq_getElem, List.getElem_map, List.getElem_enum]

/-- Helper: projecting the payload back out of an `enum`-then-`map`
pipeline recovers the original list. -/
theorem enumMap_map_proj {α β : Type _} (l : List α) (g : Nat × α → β)
    (f : β → α) (hfg : ∀ p, f (g p) = p.2) :
    (l.enum.map g).map f = l := by
  rw [List.map_map]
  have h1 : (l.enum.map (f ∘ g)) = l.enum.map Prod.snd :=
    List.map_congr_left (fun p _ => hfg p)
  rw [h1, List.enum_map_snd]

/-- Helper: counting in an `enum`-then-`map` pipeline by a predicate
that depends only on the index. -/
theorem enumMap_countP {α β : Type _} (l : List α) (g : Nat × α → β)
    (q : β → Bool) (q1 : Nat → Bool) (hq : ∀ p : Nat × α, q (g p) = q1 p.1) :
    (l.enum.map g).countP q = (List.range l.length).countP q1 := by
  rw [List.countP_map, ← List.enum_map_fst l, List.countP_map]
  exact List.countP_congr (fun p _ => by
    simp only [Function.comp_apply, hq p])

/-- The per-shard triple built inside `assign_shards`' loop:
`(shard_key, shard, assigned worker id)` for shard index `p.1` and shard
`p.2` (definitionally the loop body of `assign_shards`). -/
def shardTriple {α : Type _} (workers : List (String × Nat)) (jobId : String) :
    Nat × List α → String × List α × String :=
  fun p =>
    (s!"shard_{jobId}_{p.1}", p.2,
      (((workers.mergeSort (fun a b => a.2 ≤ b.2)).get?
          (p.1 % (workers.mergeSort (fun a b => a.2 ≤ b.2)).length)).map
        Prod.fst).getD "")

/-- C1 (amended): when `0 < ⌊|data|/n⌋` (at least as many items as the
`n` live workers), `assign_shards` splits `data` into
`⌈|data| / ⌊|data|/n⌋⌉` contiguous shards in order — all of size
`⌊|data|/n⌋` except a shorter trailing shard holding the remainder
(the remainder is NOT absorbed into the n-th shard, so more than `n`
shards arise whenever `n ∤ |data|`); shard `i` is persisted under
`shard_{job_id}_{i}` and assigned to the worker at position `i mod n` of
the workers sorted (stably) by workload ascending, and no worker
receives more than `⌈|data|/n⌉` shards. -/
theorem C1_sharding_amended {α : Type _} (workers : List (String × Nat))
    (jobId : String) (data : List α)
    (hnodup : (workers.map Prod.fst).Nodup)
    (hs : 0 < data.length / workers.length) :
    ∃ (asg : List (String × List α × String)) (sorted : List (String × Nat)),
      assign_shards workers jobId data = .ok asg
      ∧ sorted.Perm workers
      ∧ sorted.Pairwise (fun a b => a.2 ≤ b.2)
      ∧ asg.length = (data.length + data.length / workers.length - 1)
          / (data.length / workers.length)
      ∧ (asg.map (fun t => t.2.1)).flatten = data
      ∧ (∀ i (hi : i < asg.length), (asg.get ⟨i, hi⟩).1 = s!"shard_{jobId}_{i}")
      ∧ (∀ i (hi : i < asg.length), i + 1 < asg.length →
          (asg.get ⟨i, hi⟩).2.1.length = data.length / workers.length)
      ∧ asg.getLast?.map (fun t => t.2.1.length)
          = some (data.length
              - (asg.length - 1) * (data.length / workers.length))
      ∧ (∀ i (hi : i < asg.length) (hp : i % workers.length < sorted.length),
          (asg.get ⟨i, hi⟩).2.2 = (sorted.get ⟨i % workers.length, hp⟩).1)
      ∧ (∀ w, (asg.filter (fun t => t.2.2 == w)).length
          ≤ (data.length + workers.length - 1) / workers.length) := by
  have hn : 0 < workers.length := by
    rcases Nat.eq_zero_or_pos workers.length with h0 | h
    · rw [h0] at hs
      simp at hs
    · exact h
  have hL1 : 1 ≤ data.length := le_trans hs (Nat.div_le_self _ _)
  have hnotempty : workers.isEmpty = false := by
    cases workers with
    | nil => simp at hn
    | cons a t => rfl
  have hslen : (workers.mergeSort (fun a b => a.2 ≤ b.2)).length
      = workers.length := List.length_mergeSort workers
  refine ⟨(pySlices (data.length / workers.length) data).enum.map
      (shardTriple workers jobId),
    workers.mergeSort (fun a b => a.2 ≤ b.2), ?hdisp, ?hperm, ?hsort, ?hlen,
    ?hjoin, ?hkeys, ?hfull, ?hlastlen, ?hassign, ?hcount⟩
  case hdisp =>
    unfold assign_shards shard_data
    rw [hnotempty]
    simp only [Bool.false_eq_true, if_false,
      if_neg (by omega : ¬ workers.length = 0),
      if_neg (by omega : ¬ data.length / workers.length = 0)]
    rfl
  case hperm => exact List.mergeSort_perm workers _
  case hsort =>
    have h := @List.sorted_mergeSort (String × Nat)
      (fun a b => a.2 ≤ b.2)
      (fun a b c h1 h2 => by simp only [decide_eq_true_eq] at *; omega)
      (fun a b => by simp only [Bool.or_eq_true, decide_eq_true_eq]; omega)
      workers
    exact h.imp (fun hab => by simpa using hab)
  case hlen =>
    rw [enumMap_length, pySlices_length]
  case hjoin =>
    rw [enumMap_map_proj _ (shardTriple workers jobId) _ (fun p => rfl)]
    exact pySlices_join _ hs data
  case hkeys =>
    intro i hi
    rw [enumMap_get]
    rfl
  case hfull =>
    intro i hi hlast
    rw [enumMap_length, pySlices_length] at hi hlast
    rw [enumMap_get]
    exact pySlices_get_length_full (data.length / workers.length) hs data i
      (by rw [pySlices_length]; exact hi)
      (by rw [pySlices_length]; exact hlast)
  case hlastlen =>
    have hm1 : 1 ≤ (pySlices (data.length / workers.length) data).length := by
      rw [pySlices_length]
      exact (Nat.le_div_iff_mul_le hs).mpr (by omega)
    have hilast : ((pySlices (data.length / workers.length) data).enum.map
          (shardTriple workers jobId (α := α))).length - 1
        < ((pySlices (data.length / workers.length) data).enum.map
          (shardTriple workers jobId (α := α))).length := by
      rw [enumMap_length]
      omega
    rw [List.getLast?_eq_getElem?, List.getElem?_eq_getElem hilast]
    have hget := enumMap_get (pySlices (data.length / workers.length) data)
      (shardTriple workers jobId) _ hilast
    simp only [List.get_eq_getElem] at hget
    rw [hget]
    simp only [Option.map_some']
    have hlast := pySlices_get_length_last (data.length / workers.length) hs
      data hL1 (by rw [enumMap_length] at hilast; exact hilast)
    simp only [List.get_eq_getElem] at hlast
    simp only [enumMap_length]
    exact congrArg some hlast
  case hassign =>
    intro i hi hp
    rw [enumMap_get]
    show (((workers.mergeSort (fun a b => a.2 ≤ b.2)).get?
        (i % (workers.mergeSort (fun a b => a.2 ≤ b.2)).length)).map
      Prod.fst).getD ""
      = ((workers.mergeSort (fun a b => a.2 ≤ b.2)).get
          ⟨i % workers.length, hp⟩).1
    have harg : i % (workers.mergeSort
        (fun (a b : String × Nat) => a.2 ≤ b.2)).length
        = i % workers.length := by rw [hslen]
    rw [harg, List.get?_eq_get hp]
    rfl
  case hcount =>
    intro w
    rw [← List.countP_eq_length_filter]
    rw [enumMap_countP _ (shardTriple workers jobId)
      (fun t => t.2.2 == w)
      (fun i => ((((workers.mergeSort (fun a b => a.2 ≤ b.2)).get?
          (i % (workers.mergeSort (fun a b => a.2 ≤ b.2)).length)).map
        Prod.fst).getD "" == w)) (fun p => rfl)]
    have hm_le_L : (pySlices (data.length / workers.length) data).length
        ≤ data.length := by
      rw [pySlices_length]
      have hmul : data.length ≤ data.length * (data.length / workers.length) :=
        Nat.le_mul_of_pos_right _ hs
      have h2 : data.length + data.length / workers.length - 1
          ≤ data.length * (data.length / workers.length)
            + (data.length / workers.length - 1) := by omega
      calc (data.length + data.length / workers.length - 1)
            / (data.length / workers.length)
          ≤ (data.length * (data.length / workers.length)
              + (data.length / workers.length - 1))
            / (data.length / workers.length) := Nat.div_le_div_right h2
        _ ≤ data.length := by
            rw [Nat.mul_comm, Nat.mul_add_div hs]
            have h3 : (data.length / workers.length - 1)
                / (data.length / workers.length) = 0 :=
              Nat.div_eq_of_lt (by omega)
            omega
    have hperm2 : ((workers.mergeSort (fun a b => a.2 ≤ b.2)).map
        Prod.fst).Perm (workers.map Prod.fst) :=
      (List.mergeSort_perm workers _).map _
    have hnodup2 : ((workers.mergeSort (fun a b => a.2 ≤ b.2)).map
        Prod.fst).Nodup := hperm2.nodup_iff.mpr hnodup
    have hq1get : ∀ i : Nat,
        ((((workers.mergeSort (fun a b => a.2 ≤ b.2)).get?
            (i % (workers.mergeSort (fun a b => a.2 ≤ b.2)).length)).map
          Prod.fst).getD "" == w)
        = (((workers.mergeSort (fun a b => a.2 ≤ b.2)).get
            ⟨i % workers.length, by
              rw [hslen]; exact Nat.mod_lt _ hn⟩).1 == w) := by
      intro i
      have hmod : i % workers.length < workers.length := Nat.mod_lt _ hn
      have harg : i % (workers.mergeSort
          (fun (a b : String × Nat) => a.2 ≤ b.2)).length
          = i % workers.length := by rw [hslen]
      rw [harg, List.get?_eq_get (by rw [hslen]; exact hmod)]
      rfl
    by_cases hw : ∃ p, ∃ hp : p < workers.length,
        ((workers.mergeSort (fun a b => a.2 ≤ b.2)).get
          ⟨p, by rw [hslen]; exact hp⟩).1 = w
    · obtain ⟨p, hp, hpw⟩ := hw
      have hcong : (List.range
            (pySlices (data.length / workers.length) data).length).countP
              (fun i => ((((workers.mergeSort (fun a b => a.2 ≤ b.2)).get?
                  (i % (workers.mergeSort
                    (fun a b => a.2 ≤ b.2)).length)).map
                Prod.fst).getD "" == w))
          = (List.range
            (pySlices (data.length / workers.length) data).length).countP
              (fun i => i % workers.length == p) := by
        refine List.countP_congr (fun i _ => ?_)
        rw [hq1get i]
        have hmod : i % workers.length < workers.length := Nat.mod_lt _ hn
        simp only [beq_iff_eq]
        constructor
        · intro hcontra
          have hb1 : i % workers.length < ((workers.mergeSort
              (fun (a b : String × Nat) => a.2 ≤ b.2)).map Prod.fst).length := by
            rw [List.length_map, hslen]
            exact hmod
          have hb2 : p < ((workers.mergeSort
              (fun (a b : String × Nat) => a.2 ≤ b.2)).map Prod.fst).length := by
            rw [List.length_map, hslen]
            exact hp
          have h1 : ((workers.mergeSort (fun a b => a.2 ≤ b.2)).map
                Prod.fst).get ⟨i % workers.length, hb1⟩
              = ((workers.mergeSort (fun a b => a.2 ≤ b.2)).map
                Prod.fst).get ⟨p, hb2⟩ := by
            simp only [List.get_eq_getElem, List.getElem_map]
            simp only [List.get_eq_getElem] at hcontra hpw
            rw [hcontra, hpw]
          have h2 := hnodup2.get_inj_iff.mp h1
          simpa using h2
        · intro hip
          have hfin : (⟨i % workers.length, by rw [hslen]; exact hmod⟩ :
                Fin (workers.mergeSort
                  (fun (a b : String × Nat) => a.2 ≤ b.2)).length)
              = ⟨p, by rw [hslen]; exact hp⟩ := Fin.ext hip
          rw [hfin, hpw]
      rw [hcong]
      calc (List.range
            (pySlices (data.length / workers.length) data).length).countP
              (fun i => i % workers.length == p)
          ≤ ((pySlices (data.length / workers.length) data).length
              + workers.length - 1) / workers.length :=
            countP_mod_le workers.length p hn _
        _ ≤ (data.length + workers.length - 1) / workers.length :=
            Nat.div_le_div_right (by omega)
    · have hzero : (List.range
            (pySlices (data.length / workers.length) data).length).countP
              (fun i => ((((workers.mergeSort (fun a b => a.2 ≤ b.2)).get?
                  (i % (workers.mergeSort
                    (fun a b => a.2 ≤ b.2)).length)).map
                Prod.fst).getD "" == w))
          = 0 := by
        rw [List.countP_eq_zero]
        intro i _
        rw [hq1get i]
        have hmod : i % workers.length < workers.length := Nat.mod_lt _ hn
        simp only [beq_iff_eq]
        intro hcontra
        exact hw ⟨i % workers.length, hmod, hcontra⟩
      rw [hzero]
      exact Nat.zero_le _

theorem C1_sharding_amended_witness :
    ∃ (asg : List (String × List Nat × String))
      (sorted : List (String × Nat)),
      assign_shards [("w1", 0), ("w2", 0), ("w3", 0)] "j" (List.range 10)
        = .ok asg
      ∧ sorted.Perm [("w1", 0), ("w2", 0), ("w3", 0)]
      ∧ asg.length = 4
      ∧ (asg.map (fun t => t.2.1)).flatten = List.range 10
      ∧ (∀ w, (asg.filter (fun t => t.2.2 == w)).length ≤ 4) := by
  obtain ⟨asg, sorted, h1, h2, h3, h4, h5, h6, h7, h8, h9, h10⟩ :=
    C1_sharding_amended [("w1", 0), ("w2", 0), ("w3", 0)] "j" (List.range 10)
      (by decide) (by decide)
  refine ⟨asg, sorted, h1, h2, h4.trans (by decide), h5, fun w => ?_⟩
  exact le_trans (h10 w) (by decide)

end Katamari

namespace Katamari

/-! ## FileProcessor (`KatamariDB.py`, lines 91-138)

`process_value` serialises with `orjson.dumps`, compresses with `zlib`
(the default `compression_method`), base64-frames the compressed bytes
(`encode_data` / `decode_data`) and stores the SHA-256 hex digest of the
compressed bytes as the checksum.  `zlib`, `hashlib` and `orjson` are
external libraries: they are fields of the model, and the zlib
round-trip guarantee enters the claims as an explicit hypothesis.
Base64 (RFC 4648, what `base64.b64encode`/`b64decode` compute) is
implemented concretely below and its round-trip is proved. -/

/-- The base64 alphabet. -/
def b64Char (i : Nat) : Char :=
  if i < 26 then Char.ofNat (65 + i)
  else if i < 52 then Char.ofNat (97 + (i - 26))
  else if i < 62 then Char.ofNat (48 + (i - 52))
  else if i = 62 then '+'
  else '/'

/-- Index of a base64 character in the alphabet. -/
def b64Index (c : Char) : Nat :=
  if 'A' ≤ c ∧ c ≤ 'Z' then c.toNat - 65
  else if 'a' ≤ c ∧ c ≤ 'z' then c.toNat - 97 + 26
  else if '0' ≤ c ∧ c ≤ '9' then c.toNat - 48 + 52
  else if c = '+' then 62
  else 63

/-- `base64.b64encode` on a byte list (3 bytes → 4 characters, `=`
padding). -/
def b64Encode : List Nat → List Char
  | [] => []
  | [a] => [b64Char (a / 4), b64Char (a % 4 * 16), '=', '=']
  | [a, b] =>
    [b64Char (a / 4), b64Char (a % 4 * 16 + b / 16), b64Char (b % 16 * 4), '=']
  | a :: b :: c :: rest =>
    b64Char (a / 4) :: b64Char (a % 4 * 16 + b / 16)
      :: b64Char (b % 16 * 4 + c / 64) :: b64Char (c % 64) :: b64Encode rest

/-- `base64.b64decode` on well-formed input (4 characters → 3 bytes,
fewer at `=` padding). -/
def b64Decode : List Char → List Nat
  | c1 :: c2 :: c3 :: c4 :: rest =>
    if c3 = '=' then [b64Index c1 * 4 + b64Index c2 / 16]
    else if c4 = '=' then
      [b64Index c1 * 4 + b64Index c2 / 16,
       b64Index c2 % 16 * 16 + b64Index c3 / 4]
    else
      (b64Index c1 * 4 + b64Index c2 / 16)
        :: (b64Index c2 % 16 * 16 + b64Index c3 / 4)
        :: (b64Index c3 % 4 * 64 + b64Index c4)
        :: b64Decode rest
  | _ => []

theorem b64Index_b64Char : ∀ i < 64, b64Index (b64Char i) = i := by decide

theorem b64Char_ne_pad : ∀ i < 64, b64Char i ≠ '=' := by decide

/-- Base64 round-trip on byte lists. -/
theorem b64_roundtrip (bs : List Nat) (hb : ∀ b ∈ bs, b < 256) :
    b64Decode (b64Encode bs) = bs := by
  suffices h : ∀ n (l : List Nat), l.length ≤ n → (∀ b ∈ l, b < 256) →
      b64Decode (b64Encode l) = l from h bs.length bs le_rfl hb
  intro n
  induction n with
  | zero =>
    intro l hlen _
    have : l = [] := List.length_eq_zero.mp (by omega)
    subst this
    rfl
  | succ n ih =>
    intro l hlen hl
    match l with
    | [] => rfl
    | [a] =>
      have ha : a < 256 := hl a (by simp)
      rw [b64Encode, b64Decode]
      rw [if_pos rfl]
      rw [b64Index_b64Char _ (by omega), b64Index_b64Char _ (by omega)]
      have : a / 4 * 4 + a % 4 * 16 / 16 = a := by omega
      rw [this]
    | [a, b] =>
      have ha : a < 256 := hl a (by simp)
      have hbb : b < 256 := hl b (by simp)
      rw [b64Encode, b64Decode]
      rw [if_neg (b64Char_ne_pad _ (by omega)), if_pos rfl]
      rw [b64Index_b64Char _ (by omega), b64Index_b64Char _ (by omega),
        b64Index_b64Char _ (by omega)]
      have e1 : a / 4 * 4 + (a % 4 * 16 + b / 16) / 16 = a := by omega
      have e2 : (a % 4 * 16 + b / 16) % 16 * 16 + b % 16 * 4 / 4 = b := by
        omega
      rw [e1, e2]
    | a :: b :: c :: rest =>
      have ha : a < 256 := hl a (by simp)
      have hbb : b < 256 := hl b (by simp)
      have hc : c < 256 := hl c (by simp)
      rw [b64Encode, b64Decode]
      rw [if_neg (b64Char_ne_pad _ (by omega)),
        if_neg (b64Char_ne_pad _ (by omega))]
      rw [b64Index_b64Char _ (by omega), b64Index_b64Char _ (by omega),
        b64Index_b64Char _ (by omega), b64Index_b64Char _ (by omega)]
      have e1 : a / 4 * 4 + (a % 4 * 16 + b / 16) / 16 = a := by omega
      have e2 : (a % 4 * 16 + b / 16) % 16 * 16 + (b % 16 * 4 + c / 64) / 4
          = b := by omega
      have e3 : (b % 16 * 4 + c / 64) % 4 * 64 + c % 64 = c := by omega
      rw [e1, e2, e3]
      rw [ih rest (by simp at hlen ⊢; omega)
        (fun x hx => hl x (by simp [hx]))]

/-- `FileProcessor` with its external dependencies as fields:
`compress_data`/`decompress_data` are `zlib.compress`/`zlib.decompress`
at the configured level (the default `compression_method="zlib"`
branch), `sha256hex` is `hashlib.sha256(...).hexdigest()`, `dumps` is
`orjson.dumps`. -/
structure FileProcessor (α : Type _) where
  compress_data : List Nat → List Nat
  decompress_data : List Nat → List Nat
  sha256hex : List Nat → String
  dumps : α → List Nat

/-- `encode_data`: `base64.b64encode(data).decode('utf-8')`. -/
def FileProcessor.encode_data {α : Type _} (_ : FileProcessor α)
    (data : List Nat) : List Char :=
  b64Encode data

/-- `decode_data`: `base64.b64decode(encoded_data)`. -/
def FileProcessor.decode_data {α : Type _} (_ : FileProcessor α)
    (encoded : List Char) : List Nat :=
  b64Decode encoded

/-- `calculate_checksum`: SHA-256 hex digest of the bytes. -/
def FileProcessor.calculate_checksum {α : Type _} (fp : FileProcessor α)
    (data : List Nat) : String :=
  fp.sha256hex data

/-- The dict returned by `process_value`. -/
structure ProcessedValue where
  file_type : String
  binary_data : List Char
  checksum : String
  deriving Repr, DecidableEq

/-- `process_value`: dumps, compress, base64-frame, checksum the
compressed bytes. -/
def FileProcessor.process_value {α : Type _} (fp : FileProcessor α)
    (value : α) : ProcessedValue :=
  let value_data := fp.dumps value
  let compressed_data := fp.compress_data value_data
  let encoded_data := fp.encode_data compressed_data
  let checksum := fp.calculate_checksum compressed_data
  { file_type := "text/json"
    binary_data := encoded_data
    checksum := checksum }

/-- C4: for every JSON-serialisable value `v`, un-framing (base64
decode) and decompressing the framed compressed payload recovers
exactly the canonical encoding `dumps v`
(`decompress(unframe(frame(compress(encode(v))))) = encode(v)`), and
the checksum field of `process_value v` is the SHA-256 hex digest of
`compress(encode(v))`.  The zlib round-trip and byte-valuedness of the
compressed output are the library guarantees, taken as hypotheses. -/
theorem C4_codec_roundtrip {α : Type _} (fp : FileProcessor α) (v : α)
    (hrt : fp.decompress_data (fp.compress_data (fp.dumps v)) = fp.dumps v)
    (hbytes : ∀ b ∈ fp.compress_data (fp.dumps v), b < 256) :
    fp.decompress_data
        (fp.decode_data (fp.encode_data (fp.compress_data (fp.dumps v))))
      = fp.dumps v
    ∧ (fp.process_value v).checksum
      = fp.sha256hex (fp.compress_data (fp.dumps v))
    ∧ (fp.process_value v).binary_data
      = fp.encode_data (fp.compress_data (fp.dumps v))
    ∧ (fp.process_value v).file_type = "text/json" := by
  refine ⟨?_, rfl, rfl, rfl⟩
  rw [FileProcessor.encode_data, FileProcessor.decode_data,
    b64_roundtrip _ hbytes, hrt]

/-- Identity codec over single-byte payloads, used by the witness. -/
def idCodec : FileProcessor Nat :=
  { compress_data := fun d => d
    decompress_data := fun d => d
    sha256hex := fun _ => "d0"
    dumps := fun x => [x % 256] }

theorem C4_codec_roundtrip_witness :
    idCodec.decompress_data
        (idCodec.decode_data
          (idCodec.encode_data (idCodec.compress_data (idCodec.dumps 5))))
      = idCodec.dumps 5
    ∧ (idCodec.process_value 5).checksum
      = idCodec.sha256hex (idCodec.compress_data (idCodec.dumps 5)) := by
  have h := C4_codec_roundtrip idCodec 5 rfl (by decide)
  exact ⟨h.1, h.2.1⟩

end Katamari

namespace Katamari

/-! ## KatamariORM (`KatamariDB.py`, lines 357-690)

The in-memory state is `self.store`, `self.ttl_store`, `self.lru_cache`
and `self.ttl_heap`; the whoosh index, transaction log and asyncio
machinery are I/O and stay outside the embedding.  `__setitem__` is
modelled on its default `append=False` path (the claims below never
append). -/

structure KatamariORM (α : Type _) where
  store : List (String × α)
  ttl_store : List (String × Nat)
  lru_cache : List (String × α)
  ttl_heap : List (Nat × String)

/-- The empty store (`__init__`). -/
def KatamariORM.init (α : Type _) : KatamariORM α :=
  { store := [], ttl_store := [], lru_cache := [], ttl_heap := [] }

/-- `__delitem__`: remove the key from the store, the TTL map and the
LRU cache (each only if present; the index deletion is I/O). -/
def KatamariORM.delitem {α : Type _} (st : KatamariORM α) (key : String) :
    KatamariORM α :=
  { store := removeKV st.store key
    ttl_store := removeKV st.ttl_store key
    lru_cache := removeKV st.lru_cache key
    ttl_heap := st.ttl_heap }

/-- `__getitem__` at wall-clock `now`.  TTL check first: an expired key
is deleted and `None` returned, even if the TTL worker has not fired;
then the LRU cache; then the backing store, caching truthy values
(`truthy` models Python truthiness on `α`). -/
def KatamariORM.getitem {α : Type _} (truthy : α → Bool) (st : KatamariORM α)
    (now : Nat) (key : String) : Option α × KatamariORM α :=
  if (lookupKV st.ttl_store key).any (fun expiry => now > expiry) then
    (none, st.delitem key)
  else
    match lookupKV st.lru_cache key with
    | some v => (some v, st)
    | none =>
      match lookupKV st.store key with
      | some v =>
        if truthy v then
          (some v, { st with lru_cache := insertKV st.lru_cache key v })
        else (some v, st)
      | none => (none, st)

/-- `__setitem__` (default `append=False` path) at wall-clock `now`:
purge the key if already expired, write the value, refresh the LRU
cache, then record `expire_time = now + ttl` in the TTL map and heap
(or drop any stale TTL when none is given). -/
def KatamariORM.setitem {α : Type _} (st : KatamariORM α) (now : Nat)
    (key : String) (value : α) (ttl : Option Nat) : KatamariORM α :=
  let st1 :=
    if (lookupKV st.ttl_store key).any (fun expiry => now > expiry) then
      st.delitem key
    else st
  let st2 := { st1 with store := insertKV st1.store key value }
  let st3 := { st2 with lru_cache := insertKV st2.lru_cache key value }
  match ttl with
  | some d =>
    { st3 with
      ttl_store := insertKV st3.ttl_store key (now + d)
      ttl_heap := st3.ttl_heap ++ [(now + d, key)] }
  | none => { st3 with ttl_store := removeKV st3.ttl_store key }

/-- Helper: looking up the key just inserted. -/
theorem lookupKV_insertKV_self {β : Type _} (l : List (String × β))
    (k : String) (v : β) : lookupKV (insertKV l k v) k = some v := by
  induction l with
  | nil => simp [insertKV, lookupKV]
  | cons p rest ih =>
    by_cases h : p.1 = k
    · simp [insertKV, h, lookupKV]
    · simp only [insertKV]
      rw [if_neg (by simpa using h)]
      simp only [lookupKV, List.find?_cons]
      rw [show (p.1 == k) = false from by simpa using h]
      exact ih

/-- Helper: inserting one key does not affect lookups of another. -/
theorem lookupKV_insertKV_ne {β : Type _} (l : List (String × β))
    (k k' : String) (v : β) (h : k' ≠ k) :
    lookupKV (insertKV l k v) k' = lookupKV l k' := by
  induction l with
  | nil =>
    simp only [insertKV, lookupKV, List.find?_cons, List.find?_nil]
    rw [show (k == k') = false from by simpa using (Ne.symm h)]
  | cons p rest ih =>
    by_cases hp : p.1 = k
    · simp only [insertKV]
      rw [if_pos (by simpa using hp)]
      simp only [lookupKV, List.find?_cons]
      rw [show (k == k') = false from by simpa using (Ne.symm h), hp]
      rw [show (k == k') = false from by simpa using (Ne.symm h)]
    · simp only [insertKV]
      rw [if_neg (by simpa using hp)]
      simp only [lookupKV, List.find?_cons] at ih ⊢
      cases hpk : (p.1 == k') with
      | true => rfl
      | false => exact ih

/-- Helper: a removed key is gone. -/
theorem lookupKV_removeKV_self {β : Type _} (l : List (String × β))
    (k : String) : lookupKV (removeKV l k) k = none := by
  induction l with
  | nil => rfl
  | cons p rest ih =>
    by_cases hpk : p.1 = k
    · show lookupKV (List.filter _ (p :: rest)) k = none
      rw [List.filter_cons]
      rw [show (!(p.1 == k)) = false from by simpa using hpk]
      exact ih
    · show lookupKV (List.filter _ (p :: rest)) k = none
      rw [List.filter_cons]
      rw [show (!(p.1 == k)) = true from by simpa using hpk]
      simp only [if_true]
      show lookupKV (p :: List.filter _ rest) k = none
      simp only [lookupKV, List.find?_cons]
      rw [show (p.1 == k) = false from by simpa using hpk]
      exact ih

/-- C5: after `set(k, v, ttl=Δ)` at time `t_set`, the recorded expiry is
`t_set + Δ`, and a `get(k)` at any time strictly after the expiry
returns missing (`None`) and removes `k` from the store, the TTL map and
the LRU cache — without waiting for the TTL worker. -/
theorem C5_ttl_expired_get {α : Type _} (truthy : α → Bool)
    (st : KatamariORM α) (k : String) (v : α) (ttlΔ t_set t_get : Nat)
    (hafter : t_set + ttlΔ < t_get) :
    lookupKV (st.setitem t_set k v (some ttlΔ)).ttl_store k
      = some (t_set + ttlΔ)
    ∧ ((st.setitem t_set k v (some ttlΔ)).getitem truthy t_get k).1 = none
    ∧ lookupKV
        ((st.setitem t_set k v (some ttlΔ)).getitem truthy t_get k).2.store k
      = none
    ∧ lookupKV
        ((st.setitem t_set k v (some ttlΔ)).getitem truthy
          t_get k).2.ttl_store k
      = none
    ∧ lookupKV
        ((st.setitem t_set k v (some ttlΔ)).getitem truthy
          t_get k).2.lru_cache k
      = none := by
  have httl : lookupKV (st.setitem t_set k v (some ttlΔ)).ttl_store k
      = some (t_set + ttlΔ) := lookupKV_insertKV_self _ _ _
  have hcond : ((lookupKV (st.setitem t_set k v (some ttlΔ)).ttl_store
      k).any (fun expiry => t_get > expiry)) = true := by
    rw [httl]
    simpa using hafter
  constructor
  · exact httl
  · rw [KatamariORM.getitem, if_pos hcond]
    exact ⟨rfl, lookupKV_removeKV_self _ _, lookupKV_removeKV_self _ _,
      lookupKV_removeKV_self _ _⟩

theorem C5_ttl_expired_get_witness :
    lookupKV ((KatamariORM.init Nat).setitem 0 "a" 1 (some 10)).ttl_store "a"
      = some 10
    ∧ (((KatamariORM.init Nat).setitem 0 "a" 1 (some 10)).getitem
        (fun n => n ≠ 0) 11 "a").1 = none := by
  have h := C5_ttl_expired_get (fun n : Nat => n ≠ 0) (KatamariORM.init Nat)
    "a" 1 10 0 11 (by decide)
  exact ⟨h.1, h.2.1⟩

end Katamari

namespace Katamari

/-! ## KatamariORM.set (`KatamariDB.py`, lines 475-494)

`set` mutates the caller's dict in place: a string `created_at` is
replaced by the `dateutil.parser.parse` result; with no (truthy)
`file_path` entry, `process_value` output is written into the dict
under `file_info`, and the mutated dict is stored via `__setitem__`.
The `file_path` branch calls `self.file_processor.process_file`, which
does not exist (and `json` is unimported), so it raises
`AttributeError` — the claims here stay on the no-`file_path` path. -/

/-- JSON-like values held in ORM dicts.  `pydt` is the `datetime`
object produced by `dateutil.parser.parse`. -/
inductive KJson where
  | null
  | bool (b : Bool)
  | num (n : Int)
  | str (s : String)
  | arr (xs : List KJson)
  | obj (fields : List (String × KJson))
  | pydt (iso : String)

/-- Python truthiness on these values. -/
def truthyJson : KJson → Bool
  | .null => false
  | .bool b => b
  | .num n => n != 0
  | .str s => s ≠ ""
  | .arr xs => !xs.isEmpty
  | .obj fs => !fs.isEmpty
  | .pydt _ => true

/-- Python truthiness of a dict (`if value:`). -/
def truthyDict (d : List (String × KJson)) : Bool := !d.isEmpty

/-- The `process_value` dict as a `KJson` object. -/
def processedToJson (p : ProcessedValue) : KJson :=
  .obj [("file_type", .str p.file_type),
        ("binary_data", .str (String.mk p.binary_data)),
        ("checksum", .str p.checksum)]

/-- The `created_at` normalisation at the top of `set`: a string value
is replaced in place by the parse result; a `ValueError` from
`dateutil` is caught and the string kept.  `parseDate` is the external
`dateutil.parser.parse`. -/
def normalizeCreatedAt (parseDate : String → Option String)
    (value : List (String × KJson)) : List (String × KJson) :=
  match lookupKV value "created_at" with
  | some (.str s) =>
    match parseDate s with
    | some d => insertKV value "created_at" (.pydt d)
    | none => value
  | _ => value

/-- `KatamariORM.set` for a dict value: returns the new ORM state and
the (mutated) dict that was stored, or the exception text. -/
def KatamariORM.set (fp : FileProcessor (List (String × KJson)))
    (parseDate : String → Option String)
    (st : KatamariORM (List (String × KJson))) (now : Nat) (key : String)
    (value : List (String × KJson)) (ttl : Option Nat) :
    Except String
      (KatamariORM (List (String × KJson)) × List (String × KJson)) :=
  let value1 := normalizeCreatedAt parseDate value
  if (lookupKV value1 "file_path").any truthyJson then
    .error "AttributeError: 'FileProcessor' object has no attribute 'process_file'"
  else
    let file_info := fp.process_value value1
    let value2 := insertKV value1 "file_info" (processedToJson file_info)
    .ok (st.setitem now key value2 ttl, value2)

/-- Helper: keys other than `created_at` are untouched by the
normalisation. -/
theorem lookupKV_normalizeCreatedAt_ne (parseDate : String → Option String)
    (value : List (String × KJson)) (k : String) (hk : k ≠ "created_at") :
    lookupKV (normalizeCreatedAt parseDate value) k = lookupKV value k := by
  rw [normalizeCreatedAt]
  split
  · split
    · exact lookupKV_insertKV_ne _ _ _ _ hk
    · rfl
  · rfl

/-- Helper: removing a key that was never present is the identity. -/
theorem removeKV_of_none {β : Type _} (l : List (String × β)) (k : String)
    (h : lookupKV l k = none) : removeKV l k = l := by
  induction l with
  | nil => rfl
  | cons p rest ih =>
    simp only [lookupKV, List.find?_cons] at h
    cases hpk : (p.1 == k) with
    | true => rw [hpk] at h; simp at h
    | false =>
      rw [hpk] at h
      show List.filter _ (p :: rest) = p :: rest
      rw [List.filter_cons]
      rw [show (!(p.1 == k)) = true from by rw [hpk]; rfl]
      simp only [if_true]
      exact congrArg (p :: ·) (ih h)

/-- Helper: inserting an absent key appends it; removing it afterwards
restores the original list. -/
theorem removeKV_insertKV_of_none {β : Type _} (l : List (String × β))
    (k : String) (v : β) (h : lookupKV l k = none) :
    removeKV (insertKV l k v) k = l := by
  induction l with
  | nil =>
    show List.filter _ [(k, v)] = []
    rw [List.filter_cons]
    rw [show (!(k == k)) = false from by simp]
    rfl
  | cons p rest ih =>
    simp only [lookupKV, List.find?_cons] at h
    cases hpk : (p.1 == k) with
    | true => rw [hpk] at h; simp at h
    | false =>
      rw [hpk] at h
      show removeKV (if (p.1 == k) = true then (k, v) :: rest
        else p :: insertKV rest k v) k = p :: rest
      rw [if_neg (by simp [hpk])]
      show List.filter _ (p :: insertKV rest k v) = p :: rest
      rw [List.filter_cons]
      rw [show (!(p.1 == k)) = true from by rw [hpk]; rfl]
      simp only [if_true]
      exact congrArg (p :: ·) (ih h)

/-- C10: for a dict `v` with no `file_path` entry (and no pre-existing
`file_info` entry), `set(k, v)` does not store `v` verbatim: the stored
dict `v2` is `v` (with a string `created_at` replaced by its parsed
datetime) plus a `file_info` entry holding the codec output
`{file_type, binary_data, checksum}` of the dict itself; a subsequent
`get(k)` returns exactly `v2`, and `v2` is not equal (as a map) to the
`v` originally passed in. -/
theorem C10_set_frame_effect (fp : FileProcessor (List (String × KJson)))
    (parseDate : String → Option String)
    (st : KatamariORM (List (String × KJson))) (now : Nat) (key : String)
    (v : List (String × KJson)) (ttl : Option Nat)
    (hfp : lookupKV v "file_path" = none)
    (hfi : lookupKV v "file_info" = none) :
    ∃ (st' : KatamariORM (List (String × KJson)))
      (v2 : List (String × KJson)),
      KatamariORM.set fp parseDate st now key v ttl = .ok (st', v2)
      ∧ lookupKV v2 "file_info"
          = some (processedToJson (fp.process_value (removeKV v2 "file_info")))
      ∧ (∀ k', k' ≠ "file_info" → k' ≠ "created_at" →
          lookupKV v2 k' = lookupKV v k')
      ∧ (∀ s d, lookupKV v "created_at" = some (.str s) →
          parseDate s = some d →
          lookupKV v2 "created_at" = some (.pydt d))
      ∧ ((st'.getitem truthyDict now key).1 = some v2)
      ∧ ¬ (∀ k', lookupKV v2 k' = lookupKV v k') := by
  have hfp1 : lookupKV (normalizeCreatedAt parseDate v) "file_path" = none :=
    (lookupKV_normalizeCreatedAt_ne parseDate v _ (by decide)).trans hfp
  have hfi1 : lookupKV (normalizeCreatedAt parseDate v) "file_info" = none :=
    (lookupKV_normalizeCreatedAt_ne parseDate v _ (by decide)).trans hfi
  set v1 := normalizeCreatedAt parseDate v with hv1
  set v2 := insertKV v1 "file_info" (processedToJson (fp.process_value v1))
    with hv2
  have hlkfi : lookupKV v2 "file_info"
      = some (processedToJson (fp.process_value v1)) :=
    lookupKV_insertKV_self _ _ _
  refine ⟨st.setitem now key v2 ttl, v2, ?_, ?_, ?_, ?_, ?_, ?_⟩
  · rw [KatamariORM.set]
    rw [if_neg (by rw [hfp1]; simp)]
  · rw [hlkfi, hv2, removeKV_insertKV_of_none _ _ _ hfi1]
  · intro k' hkfi hkca
    rw [hv2, lookupKV_insertKV_ne _ _ _ _ hkfi, hv1,
      lookupKV_normalizeCreatedAt_ne _ _ _ hkca]
  · intro s d hs hd
    rw [hv2, lookupKV_insertKV_ne _ _ _ _ (by decide), hv1,
      normalizeCreatedAt]
    simp only [hs, hd]
    exact lookupKV_insertKV_self _ _ _
  · have hlru : lookupKV (st.setitem now key v2 ttl).lru_cache key
        = some v2 := by
      cases ttl with
      | some d => exact lookupKV_insertKV_self _ _ _
      | none => exact lookupKV_insertKV_self _ _ _
    have httlcond : ((lookupKV (st.setitem now key v2 ttl).ttl_store
        key).any (fun expiry => now > expiry)) = false := by
      cases ttl with
      | some d =>
        show ((lookupKV (insertKV _ key (now + d)) key).any
          (fun expiry => now > expiry)) = false
        rw [lookupKV_insertKV_self]
        exact decide_eq_false (by omega)
      | none =>
        show ((lookupKV (removeKV _ key) key).any
          (fun expiry => now > expiry)) = false
        rw [lookupKV_removeKV_self]
        rfl
    rw [KatamariORM.getitem, if_neg (by rw [httlcond]; simp), hlru]
  · intro hall
    have h := hall "file_info"
    rw [hlkfi, hfi] at h
    exact Option.noConfusion h

end Katamari

namespace Katamari

/-- Concrete codec for the C10 witness. -/
def dictCodec : FileProcessor (List (String × KJson)) :=
  { compress_data := fun d => d
    decompress_data := fun d => d
    sha256hex := fun _ => "c0"
    dumps := fun _ => [] }

theorem C10_set_frame_effect_witness :
    ∃ (st' : KatamariORM (List (String × KJson)))
      (v2 : List (String × KJson)),
      KatamariORM.set dictCodec (fun _ => none) (KatamariORM.init _) 0 "k"
          [("a", KJson.num 1)] none = .ok (st', v2)
      ∧ (st'.getitem truthyDict 0 "k").1 = some v2
      ∧ ¬ (∀ k', lookupKV v2 k' = lookupKV [("a", KJson.num 1)] k') := by
  obtain ⟨st', v2, h1, h2, h3, h4, h5, h6⟩ := C10_set_frame_effect dictCodec
    (fun _ => none) (KatamariORM.init _) 0 "k" [("a", KJson.num 1)] none
    rfl rfl
  exact ⟨st', v2, h1, h5, h6⟩

end Katamari

namespace Katamari

/-! ## Worker registration (`KatamariMQServer.py` lines 29-43, 147-153;
`KatamariMQClient.py` lines 94-106)

Server side, `handle_worker` takes the FIRST received frame verbatim as
the worker id and registers it with workload 0 (in `self.workers` and in
the `KatamariDBM`).  Client side, `WorkerNode.start` sends as its first
frame `json.dumps({'worker_id': self.node_id, 'workload':
self.workload})` — a JSON envelope, not the bare id. -/

/-- The first frame `WorkerNode.start` sends:
`json.dumps({'worker_id': node_id, 'workload': workload})` with
Python's default separators. -/
def workerFirstFrame (nodeId : String) (workload : Nat) : String :=
  "\x7b\"worker_id\": \"" ++ nodeId ++ "\", \"workload\": "
    ++ toString workload ++ "\x7d"

/-- The record `register_worker` persists in the `KatamariDBM`:
`{'worker_id': ..., 'workload': 0, 'registered_at': str(datetime.now())}`. -/
structure WorkerRecord where
  worker_id : String
  workload : Nat
  registered_at : String
  deriving Repr, DecidableEq

/-- The server state touched by registration: the in-memory
`self.workers` map (`worker_id ↦ workload`; heartbeat timestamp and
websocket handle are I/O) and the persisted `KatamariDBM` records. -/
structure MQServerState where
  workers : List (String × Nat)
  db : List (String × WorkerRecord)
  deriving Repr, DecidableEq

/-- `KatamariMQServer.register_worker` (with `now` the
`str(datetime.now())` read). -/
def register_worker (st : MQServerState) (workerId : String)
    (now : String) : MQServerState :=
  { workers := insertKV st.workers workerId 0
    db := insertKV st.db workerId ⟨workerId, 0, now⟩ }

/-- The first step of `KatamariMQServer.handle_worker`:
`worker_id = await websocket.recv(); register_worker(ws, worker_id)`. -/
def handle_worker_first_frame (st : MQServerState) (frame : String)
    (now : String) : MQServerState :=
  register_worker st frame now

/-- C6 (code bug): the server registers whatever the first frame holds
under workload 0 — but the client's first frame is the JSON envelope
`{"worker_id": W, "workload": 0}`, not the bare worker id `W`.  For
`W = "worker_1"` the registry and the persisted record end up keyed by
the JSON text, and no entry exists under `"worker_1"`. -/
theorem C6_registration_frame_mismatch :
    (∀ (st : MQServerState) (frame now : String),
      lookupKV (handle_worker_first_frame st frame now).workers frame
          = some 0
      ∧ lookupKV (handle_worker_first_frame st frame now).db frame
          = some ⟨frame, 0, now⟩)
    ∧ workerFirstFrame "worker_1" 0
        = "\x7b\"worker_id\": \"worker_1\", \"workload\": 0\x7d"
    ∧ workerFirstFrame "worker_1" 0 ≠ "worker_1"
    ∧ lookupKV (handle_worker_first_frame ⟨[], []⟩
        (workerFirstFrame "worker_1" 0) "t").workers "worker_1" = none
    ∧ lookupKV (handle_worker_first_frame ⟨[], []⟩
        (workerFirstFrame "worker_1" 0) "t").workers
          (workerFirstFrame "worker_1" 0) = some 0 := by
  refine ⟨fun st frame now =>
    ⟨lookupKV_insertKV_self _ _ _, lookupKV_insertKV_self _ _ _⟩,
    rfl, by decide, by decide, by decide⟩

end Katamari
